import Mathlib

/-!
# Verification of the PEPFAR migration-forecasting pipeline

Shallow embedding of the data-fusion and feature-engineering scripts of the
repository (`unified_processing_script.py`, `preprocess_migration_data.py`,
`feature_engineering.py`, `estimate_rf_models.py`, `determine_land_route.py`)
together with proofs and refutations of the specification claims.

Conventions used throughout:
* A month is a natural number (year * 12 + month), so consecutive months
  differ by 1; where a claim needs calendar (year, month) pairs we use
  `Nat × Nat`.
* Numeric cell values are `ℚ` (or `ℤ` for raw counts); a nullable column is
  `Option ℚ`, with `none` playing the role of pandas `NaN`.
* `pandas.sort_values` is modelled as a stable sort (insertion sort below);
  `drop_duplicates` keep-first / keep-last and `groupby` operations are
  modelled directly on lists of rows in frame order.
-/

namespace PEPFAR

/-! ## Generic list machinery shared by several claims -/

/-- Stable insertion of `r` into `l` by the natural-number key `key`:
`r` is placed before the first element whose key is `≥ key r`, so elements
with equal keys keep their original relative order. -/
def insertBy {α : Type} (key : α → Nat) (r : α) : List α → List α
  | [] => [r]
  | s :: ss => if key r ≤ key s then r :: s :: ss else s :: insertBy key r ss

/-- Stable sort by a natural-number key; models `pandas.DataFrame.sort_values`. -/
def sortBy {α : Type} (key : α → Nat) : List α → List α
  | [] => []
  | r :: rs => insertBy key r (sortBy key rs)

theorem insertBy_perm {α : Type} (key : α → Nat) (r : α) (l : List α) :
    (insertBy key r l).Perm (r :: l) := by
  induction l with
  | nil => simp [insertBy]
  | cons s ss ih =>
    simp only [insertBy]
    split
    · exact List.Perm.refl _
    · exact (ih.cons s).trans (List.Perm.swap r s ss)

theorem sortBy_perm {α : Type} (key : α → Nat) (l : List α) :
    (sortBy key l).Perm l := by
  induction l with
  | nil => simp [sortBy]
  | cons r rs ih => exact (insertBy_perm key r _).trans (ih.cons r)

theorem mem_sortBy {α : Type} (key : α → Nat) (l : List α) (a : α) :
    a ∈ sortBy key l ↔ a ∈ l :=
  (sortBy_perm key l).mem_iff

theorem insertBy_sorted {α : Type} (key : α → Nat) (r : α) (l : List α)
    (h : l.Pairwise (fun a b => key a ≤ key b)) :
    (insertBy key r l).Pairwise (fun a b => key a ≤ key b) := by
  induction l with
  | nil => simp [insertBy]
  | cons s ss ih =>
    simp only [insertBy]
    split
    · rename_i hle
      refine List.Pairwise.cons ?_ h
      intro b hb
      rcases List.mem_cons.mp hb with hb' | hb'
      · subst hb'; exact hle
      · exact le_trans hle ((List.pairwise_cons.mp h).1 b hb')
    · rename_i hgt
      push_neg at hgt
      refine List.Pairwise.cons ?_ (ih (List.pairwise_cons.mp h).2)
      intro b hb
      rcases List.mem_cons.mp ((insertBy_perm key r ss).mem_iff.mp hb) with hb' | hb'
      · subst hb'; omega
      · exact (List.pairwise_cons.mp h).1 b hb'

theorem sortBy_sorted {α : Type} (key : α → Nat) (l : List α) :
    (sortBy key l).Pairwise (fun a b => key a ≤ key b) := by
  induction l with
  | nil => simp [sortBy]
  | cons r rs ih => exact insertBy_sorted key r _ ih

theorem filter_insertBy_neg {α : Type} (key : α → Nat) (p : α → Bool) (r : α)
    (l : List α) (hpr : p r = false) :
    (insertBy key r l).filter p = l.filter p := by
  induction l with
  | nil => simp [insertBy, List.filter, hpr]
  | cons s ss ih =>
    simp only [insertBy]
    split
    · simp [List.filter_cons, hpr]
    · simp only [List.filter_cons]
      rw [ih]

theorem filter_insertBy_pos {α : Type} (key : α → Nat) (p : α → Bool) (r : α)
    (l : List α) (hpr : p r = true)
    (hmin : ∀ a ∈ l, p a = true → key r ≤ key a) :
    (insertBy key r l).filter p = r :: l.filter p := by
  induction l with
  | nil => simp [insertBy, List.filter, hpr]
  | cons s ss ih =>
    simp only [insertBy]
    split
    · simp [List.filter_cons, hpr]
    · rename_i hgt
      push_neg at hgt
      have hps : p s = false := by
        by_contra hcon
        have : key r ≤ key s :=
          hmin s (List.mem_cons_self s ss) (by simpa using hcon)
        omega
      simp only [List.filter_cons, hps]
      rw [ih (fun a ha hpa => hmin a (List.mem_cons_of_mem s ha) hpa)]
      simp [hps]

/-- Stability in the form needed for deduplication proofs: if every row
satisfying `p` has the same sort key, then sorting does not change the
subsequence of `p`-rows. -/
theorem filter_sortBy {α : Type} (key : α → Nat) (p : α → Bool) (c : Nat)
    (l : List α) (hkey : ∀ a, p a = true → key a = c) :
    (sortBy key l).filter p = l.filter p := by
  induction l with
  | nil => simp [sortBy]
  | cons r rs ih =>
    simp only [sortBy]
    by_cases hpr : p r
    · have hmin : ∀ a ∈ sortBy key rs, p a = true → key r ≤ key a := by
        intro a _ hpa
        rw [hkey a hpa, hkey r (by simpa using hpr)]
      rw [filter_insertBy_pos key p r _ (by simpa using hpr) hmin, ih]
      simp [List.filter_cons, hpr]
    · rw [filter_insertBy_neg key p r _ (by simpa using hpr), ih]
      simp [List.filter_cons, hpr]

/-- Worker for `dedupBy`: `seen` holds the keys already emitted. -/
def dedupByAux {α : Type} (key : α → Nat) (seen : List Nat) : List α → List α
  | [] => []
  | r :: rs =>
      if key r ∈ seen then dedupByAux key seen rs
      else r :: dedupByAux key (key r :: seen) rs

/-- `pandas.DataFrame.drop_duplicates(subset=[key])` with the default
`keep="first"`: retain the first row bearing each key, in frame order. -/
def dedupBy {α : Type} (key : α → Nat) (l : List α) : List α :=
  dedupByAux key [] l

theorem dedupByAux_subset {α : Type} (key : α → Nat) (l : List α) :
    ∀ (seen : List Nat) (a : α), a ∈ dedupByAux key seen l → a ∈ l := by
  induction l with
  | nil => intro seen a ha; simp [dedupByAux] at ha
  | cons r rs ih =>
    intro seen a ha
    rw [dedupByAux] at ha
    split at ha
    · exact List.mem_cons_of_mem r (ih seen a ha)
    · rcases List.mem_cons.mp ha with h | h
      · simp [h]
      · exact List.mem_cons_of_mem r (ih _ a h)

theorem dedupBy_subset {α : Type} (key : α → Nat) (l : List α) (a : α)
    (ha : a ∈ dedupBy key l) : a ∈ l :=
  dedupByAux_subset key l [] a ha

theorem dedupByAux_keys_mem {α : Type} (key : α → Nat) (l : List α) :
    ∀ (seen : List Nat) (d : Nat),
      d ∈ (dedupByAux key seen l).map key ↔ (d ∈ l.map key ∧ d ∉ seen) := by
  induction l with
  | nil => intro seen d; simp [dedupByAux]
  | cons r rs ih =>
    intro seen d
    rw [dedupByAux]
    split
    · rename_i hin
      rw [ih seen d]
      simp only [List.map_cons, List.mem_cons]
      constructor
      · rintro ⟨h1, h2⟩; exact ⟨Or.inr h1, h2⟩
      · rintro ⟨h1 | h1, h2⟩
        · subst h1; exact absurd hin h2
        · exact ⟨h1, h2⟩
    · rename_i hnin
      simp only [List.map_cons, List.mem_cons, ih (key r :: seen) d]
      constructor
      · rintro (rfl | ⟨h1, h2⟩)
        · exact ⟨Or.inl rfl, hnin⟩
        · exact ⟨Or.inr h1, fun hc => h2 (Or.inr hc)⟩
      · rintro ⟨h1 | h1, h2⟩
        · exact Or.inl h1
        · by_cases hdr : d = key r
          · exact Or.inl hdr
          · refine Or.inr ⟨h1, ?_⟩
            rintro (hc | hc)
            · exact hdr hc
            · exact h2 hc

theorem dedupBy_keys_mem {α : Type} (key : α → Nat) (l : List α) (d : Nat) :
    d ∈ (dedupBy key l).map key ↔ d ∈ l.map key := by
  rw [dedupBy, dedupByAux_keys_mem]
  simp

theorem dedupByAux_keys_nodup {α : Type} (key : α → Nat) (l : List α) :
    ∀ (seen : List Nat), ((dedupByAux key seen l).map key).Nodup := by
  induction l with
  | nil => intro seen; simp [dedupByAux]
  | cons r rs ih =>
    intro seen
    rw [dedupByAux]
    split
    · exact ih seen
    · rename_i hnin
      simp only [List.map_cons]
      refine List.Nodup.cons ?_ (ih (key r :: seen))
      intro hmem
      have := (dedupByAux_keys_mem key rs (key r :: seen) (key r)).mp hmem
      exact this.2 (List.mem_cons_self _ _)

theorem dedupBy_keys_nodup {α : Type} (key : α → Nat) (l : List α) :
    ((dedupBy key l).map key).Nodup :=
  dedupByAux_keys_nodup key l []

/-- `pandas.DataFrame.drop_duplicates(subset=[key], keep="last")`:
a row is retained exactly when no later row carries the same key. -/
def keepLastBy {α κ : Type} [DecidableEq κ] (key : α → κ) : List α → List α
  | [] => []
  | x :: l =>
      if key x ∈ l.map key then keepLastBy key l
      else x :: keepLastBy key l

theorem keepLastBy_sublist {α κ : Type} [DecidableEq κ] (key : α → κ)
    (l : List α) : (keepLastBy key l).Sublist l := by
  induction l with
  | nil => simp [keepLastBy]
  | cons x t ih =>
    rw [keepLastBy]
    split
    · exact ih.trans (List.sublist_cons_self x t)
    · exact ih.cons₂ x

theorem keepLastBy_keys_nodup {α κ : Type} [DecidableEq κ] (key : α → κ)
    (l : List α) : ((keepLastBy key l).map key).Nodup := by
  induction l with
  | nil => simp [keepLastBy]
  | cons x t ih =>
    rw [keepLastBy]
    split
    · exact ih
    · rename_i hnot
      refine List.Nodup.cons ?_ ih
      intro hmem
      exact hnot (((keepLastBy_sublist key t).map key).subset hmem)

/-- The `keep="last"` deduplication retains, among the rows whose key is `c`,
exactly the last one. -/
theorem keepLastBy_filter {α κ : Type} [DecidableEq κ] (key : α → κ)
    (c : κ) (l : List α) :
    (keepLastBy key l).filter (fun a => decide (key a = c))
      = (l.filter (fun a => decide (key a = c))).getLast?.toList := by
  induction l with
  | nil => simp [keepLastBy]
  | cons x t ih =>
    rw [keepLastBy]
    split
    · rename_i hcont
      rw [ih]
      by_cases hpx : key x = c
      · have hne : t.filter (fun a => decide (key a = c)) ≠ [] := by
          rcases List.mem_map.mp hcont with ⟨a, ha, hk⟩
          intro hnil
          have : a ∈ t.filter (fun a => decide (key a = c)) :=
            List.mem_filter.mpr ⟨ha, by simp [hk, hpx]⟩
          simp [hnil] at this
        rw [List.filter_cons_of_pos (by simp [hpx])]
        rcases List.exists_cons_of_ne_nil hne with ⟨y, ys, hys⟩
        rw [hys, List.getLast?_cons_cons]
      · rw [List.filter_cons_of_neg (by simp [hpx])]
    · rename_i hnot
      by_cases hpx : key x = c
      · have hemp : t.filter (fun a => decide (key a = c)) = [] := by
          rw [List.filter_eq_nil_iff]
          intro a ha hpa
          have hkac : key a = c := of_decide_eq_true hpa
          exact hnot (List.mem_map.mpr ⟨a, ha, by rw [hkac, hpx]⟩)
        have hemp2 : (keepLastBy key t).filter (fun a => decide (key a = c)) = [] := by
          rw [ih, hemp]; rfl
        rw [List.filter_cons_of_pos (by simp [hpx]),
            List.filter_cons_of_pos (by simp [hpx]), hemp, hemp2]
        rfl
      · rw [List.filter_cons_of_neg (by simp [hpx]),
            List.filter_cons_of_neg (by simp [hpx]), ih]

/-! ## C6 — ingestion value cleaning

`unified_processing_script.py` line 76 cleans the melted value column with
`pd.to_numeric(df.astype(str).str.replace(",", ""), errors="coerce").fillna(0).astype(int)`;
`preprocess_migration_data.py` line 29 uses
`pd.to_numeric(df_melted["Encounters"], errors="coerce").fillna(0).astype(int)`
(no comma stripping). -/

/-- Models `pd.to_numeric(·, errors="coerce")` on the integer-like cell
strings of these sheets: a non-empty all-digit string parses to its value,
anything else (including comma-bearing strings) coerces to `NaN` (`none`). -/
def parseNumeric (s : String) : Option ℤ :=
  if s.length ≠ 0 ∧ s.toList.all Char.isDigit then
    some ((s.toList.foldl (fun n c => n * 10 + (c.toNat - 48)) 0 : Nat) : ℤ)
  else none

/-- `str.replace(",", "")`: remove every comma (thousands separator). -/
def stripCommas (s : String) : String :=
  ⟨s.toList.filter (fun c => c != ',')⟩

/-- Value cleaning of `unified_processing_script.py` (line 76): strip commas,
coerce, and floor failures to zero. -/
def cleanUnified (s : String) : ℤ :=
  (parseNumeric (stripCommas s)).getD 0

/-- Value cleaning of `preprocess_migration_data.py` (line 29): coerce
directly (no comma stripping) and floor failures to zero. -/
def cleanPreprocess (s : String) : ℤ :=
  (parseNumeric s).getD 0

/-- C6 — counterexample. The claim asserts that during ingestion value
cleaning, comma-formatted numeric strings such as `"1,234"` parse to the
integer `1234`. The cleaning in `preprocess_migration_data.py` (line 29)
performs no comma stripping, so `pd.to_numeric` coerces `"1,234"` to `NaN`
and the `fillna(0)` turns it into `0`, not `1234`. -/
theorem C6_counterexample :
    cleanPreprocess "1,234" = 0 ∧ (0 : ℤ) ≠ 1234 := by
  constructor
  · decide
  · decide

/-- C6 (amended): in the unified script the melted value column is coerced to
a defined integer — thousands separators are stripped before coercion, so
`"1,234"` parses to `1234`, every string whose comma-stripped form is numeric
parses to its value, and every other cell becomes `0`, never null; the
standalone `preprocess_migration_data.py` cleaning, by contrast, does not
strip commas, so `"1,234"` there floors to `0`. -/
theorem C6_value_cleaning :
    cleanUnified "1,234" = 1234
    ∧ (∀ s n, parseNumeric (stripCommas s) = some n → cleanUnified s = n)
    ∧ (∀ s, parseNumeric (stripCommas s) = none → cleanUnified s = 0)
    ∧ cleanPreprocess "1,234" = 0 := by
  refine ⟨by decide, ?_, ?_, by decide⟩
  · intro s n h
    simp [cleanUnified, h]
  · intro s h
    simp [cleanUnified, h]

/-- C6 — witness for the amended theorem at the concrete input `"2,345"`. -/
theorem C6_value_cleaning_witness :
    parseNumeric (stripCommas "2,345") = some 2345 ∧ cleanUnified "2,345" = 2345 :=
  ⟨by decide, C6_value_cleaning.2.1 "2,345" 2345 (by decide)⟩

/-! ## C3 — the `TimeIndex` feature

`unified_processing_script.py` line 162:
`df["TimeIndex"] = (year * 12 + month) - (year.min() * 12 + month.min())`;
`feature_engineering.py` line 12:
`df["TimeIndex"] = (year - year.min()) * 12 + month - month.min()`.
Both take the minimum of the year column and the minimum of the month column
*independently*. Rows are `(year, month)` pairs. -/

/-- The `TimeIndex` column as computed by `unified_processing_script.py`. -/
def timeIndexUnified (rows : List (Nat × Nat)) : List ℤ :=
  let ymin := (rows.map Prod.fst).min?.getD 0
  let mmin := (rows.map Prod.snd).min?.getD 0
  rows.map fun p => Int.ofNat (p.1 * 12 + p.2) - Int.ofNat (ymin * 12 + mmin)

/-- The `TimeIndex` column as computed by `feature_engineering.py`. -/
def timeIndexFE (rows : List (Nat × Nat)) : List ℤ :=
  let ymin := (rows.map Prod.fst).min?.getD 0
  let mmin := (rows.map Prod.snd).min?.getD 0
  rows.map fun p => ((p.1 : ℤ) - (ymin : ℤ)) * 12 + (p.2 : ℤ) - (mmin : ℤ)

/-- Modelled from the spec: the number of whole months elapsed between the
earliest date present anywhere in the dataset and each row's date — what the
claim (and the code's own comment, "number of months from the start of the
dataset") says `TimeIndex` is. -/
def monthsSinceEarliest (rows : List (Nat × Nat)) : List ℤ :=
  let e := (rows.map (fun p => p.1 * 12 + p.2)).min?.getD 0
  rows.map fun p => Int.ofNat (p.1 * 12 + p.2) - Int.ofNat e

/-- C3 — the code contradicts the claim (and its own comment). Both
implementations of `TimeIndex` agree and equal
`(y*12+m) - (min year * 12 + min month)` with the two minima taken over the
whole dataset independently; on the dataset `[Oct 2019, Jan 2020]` the
earliest date is Oct 2019, so months-since-earliest is `[0, 3]`, yet the code
produces `[9, 12]` because the minimum month (January, from the later date)
does not come from the earliest date. -/
theorem C3_time_index_bug :
    (∀ rows, timeIndexFE rows = timeIndexUnified rows)
    ∧ timeIndexUnified [(2019, 10), (2020, 1)] = [9, 12]
    ∧ monthsSinceEarliest [(2019, 10), (2020, 1)] = [0, 3]
    ∧ (9 : ℤ) ≠ 0 := by
  refine ⟨?_, by decide, by decide, by decide⟩
  intro rows
  simp only [timeIndexFE, timeIndexUnified]
  refine List.map_congr_left ?_
  intro p _
  push_cast [Int.ofNat_eq_natCast]
  ring

/-! ## C10 — the `Land Route Possible` flag (`determine_land_route.py`)

A country row carries its ISO_A3 code, its recorded continent, and its merged
geometry; `geomNonempty = none` models a geometry missing after the left
merge (`country_geom is None`), `some false` a present-but-empty geometry,
`some true` a present non-empty geometry. -/

structure CRow where
  iso : String
  continent : String
  geomNonempty : Option Bool
deriving DecidableEq

/-- `american_continents` (line 21). -/
def americanContinents : List String := ["North America", "South America"]

/-- The ISO codes given an unconditional land route (lines 87, 93, 174). -/
def usaMexCan : List String := ["USA", "MEX", "CAN"]

/-- `island_exceptions_iso_a3` (lines 153-159). -/
def islandExceptions : List String :=
  ["ATG", "AIA", "BES", "BHS", "BMU", "BRB", "CUB", "CUW", "CYM", "DMA",
   "DOM", "FLK", "GRD", "GRL", "GLP", "HTI", "JAM", "KNA", "LCA", "MAF",
   "MSR", "MTQ", "PRI", "SGS", "SXM", "TCA", "TTO", "VCT", "VGB", "VIR"]

/-- The per-row body of the `Land Route Possible` loop (lines 85-167):
not on an American continent → `False`; USA/MEX/CAN → `True`; missing or
empty geometry → `False`; otherwise `True` exactly when the ISO code is not
in the island exception list. -/
def landRouteLoop (r : CRow) : Bool :=
  if americanContinents.contains r.continent then
    if usaMexCan.contains r.iso then true
    else
      match r.geomNonempty with
      | some true => !(islandExceptions.contains r.iso)
      | _ => false
  else false

/-- The final flag: after the loop, line 174 forces USA/MEX/CAN to `True`
regardless of their recorded continent. -/
def landRoute (r : CRow) : Bool :=
  if usaMexCan.contains r.iso then true else landRouteLoop r

/-- Modelled from the spec claim: `True` iff the ISO code is USA/MEX/CAN, or
the continent is an American one and the ISO code is not in the island
exception list (no geometry condition). -/
def landRouteClaim (r : CRow) : Bool :=
  usaMexCan.contains r.iso
    || (americanContinents.contains r.continent
        && !(islandExceptions.contains r.iso))

/-- C10 — counterexample. A row on an American continent whose ISO code is
not in the island exception list but whose merged geometry is missing gets
`False` from the loop (the `country_geom is None or country_geom.is_empty`
branch, lines 102-105), while the claim's geometry-free biconditional
demands `True`. -/
theorem C10_counterexample :
    landRoute ⟨"GTM", "North America", none⟩ = false
    ∧ landRouteClaim ⟨"GTM", "North America", none⟩ = true := by
  constructor
  · decide
  · decide

/-- C10 (amended): the computed flag is `True` iff the ISO code is one of
USA/MEX/CAN (regardless of the recorded continent), or the continent is
North/South America, the merged geometry is present and non-empty, and the
ISO code is not in the hard-coded island exception list; in particular every
country outside the Americas other than USA/MEX/CAN gets `False`. -/
theorem C10_land_route :
    ∀ r : CRow,
      landRoute r
        = (usaMexCan.contains r.iso
            || (americanContinents.contains r.continent
                && (r.geomNonempty == some true)
                && !(islandExceptions.contains r.iso))) := by
  intro r
  rcases r with ⟨iso, cont, geom⟩
  simp only [landRoute, landRouteLoop]
  by_cases h1 : iso ∈ usaMexCan
  · simp [h1]
  · by_cases h2 : cont ∈ americanContinents
    · rcases geom with _ | b
      · simp [h1, h2]
      · cases b <;> simp [h1, h2]
    · simp [h1, h2]

/-! ## C4 / C5 — per-nationality lag and rolling-window features

`create_lagged_features` (`feature_engineering.py` lines 16-22,
`unified_processing_script.py` lines 165-173) computes
`df.groupby("Nationality")[col].shift(lag)`; `create_rolling_features`
(lines 24-38 resp. 175-186) computes
`rolling(window, min_periods=1).mean()` / `.std()` within each group.
A panel row is a (nationality, value) pair in frame order; the date order
within each group is its order of appearance, as in the sorted frame. -/

structure PRow where
  nat : String
  enc : ℚ
deriving DecidableEq

/-- Generic per-group column: each output entry is `f hist x`, where `x` is
the row's value and `hist` the values of all *earlier* rows of the same
nationality, in order.  This is the common shape of `groupby(...).shift` and
`groupby(...).rolling`. -/
def colAux {α : Type} (f : List ℚ → ℚ → α) : List PRow → List PRow → List α
  | _, [] => []
  | seen, r :: rs =>
      f ((seen.filter (fun s => s.nat == r.nat)).map PRow.enc) r.enc
        :: colAux f (seen ++ [r]) rs

/-- The grouped feature column over a whole frame. -/
def groupedCol {α : Type} (f : List ℚ → ℚ → α) (rows : List PRow) : List α :=
  colAux f [] rows

/-- The value sequence of one nationality, in frame order. -/
def groupSeq (g : String) (rows : List PRow) : List ℚ :=
  (rows.filter (fun r => r.nat == g)).map PRow.enc

/-- The same generic column computed over a single plain value sequence,
threading the running history `hist`. -/
def listColFrom {α : Type} (f : List ℚ → ℚ → α) : List ℚ → List ℚ → List α
  | _, [] => []
  | hist, x :: xs => f hist x :: listColFrom f (hist ++ [x]) xs

/-- Key structural fact: restricted to the rows of one nationality, the
grouped column equals the plain column of that nationality's own value
sequence — grouped features never read another group's rows. -/
theorem colAux_restrict {α : Type} (f : List ℚ → ℚ → α) (g : String)
    (rows : List PRow) : ∀ seen : List PRow,
    ((rows.zip (colAux f seen rows)).filter (fun p => p.1.nat == g)).map Prod.snd
      = listColFrom f ((seen.filter (fun s => s.nat == g)).map PRow.enc)
          (groupSeq g rows) := by
  induction rows with
  | nil => intro seen; simp [colAux, groupSeq, listColFrom]
  | cons r rs ih =>
    intro seen
    simp only [colAux, List.zip_cons_cons, groupSeq, List.filter_cons]
    by_cases hg : r.nat = g
    · subst hg
      simp only [beq_self_eq_true, if_pos, List.map_cons, listColFrom]
      refine congrArg (List.cons _) ?_
      rw [ih (seen ++ [r])]
      simp [groupSeq, List.filter_append]
    · have hgb : (r.nat == g) = false := by simpa using hg
      simp only [hgb, Bool.false_eq_true, if_neg, not_false_iff, ite_false]
      have := ih (seen ++ [r])
      rw [this]
      simp [groupSeq, List.filter_append, hgb]

/-- Positional description of `listColFrom`: entry `j` is `f` applied to the
first `j` values (after `hist`) and the `j`-th value. -/
theorem listColFrom_get {α : Type} (f : List ℚ → ℚ → α) (xs : List ℚ) :
    ∀ (hist : List ℚ) (j : Nat),
    (listColFrom f hist xs)[j]? = (xs[j]?).map (fun x => f (hist ++ xs.take j) x) := by
  induction xs with
  | nil => intro hist j; simp [listColFrom]
  | cons x xs ih =>
    intro hist j
    cases j with
    | zero => simp [listColFrom]
    | succ j =>
      simp only [listColFrom, List.getElem?_cons_succ, List.take_succ_cons]
      rw [ih (hist ++ [x]) j]
      simp [List.append_assoc]

/-- `groupby(g)[c].shift(k)`: the `k`-th previous in-group value, `NaN`
(= `none`) while fewer than `k` in-group values precede.  Faithful for the
positive lags `k ∈ {1,2,3,6,12}` the scripts use. -/
def lagF (k : Nat) : List ℚ → ℚ → Option ℚ :=
  fun hist _ => if k ≤ hist.length then hist[hist.length - k]? else none

/-- The last `n` elements of a list (the trailing rolling window). -/
def lastN {α : Type} (n : Nat) (l : List α) : List α :=
  l.drop (l.length - n)

/-- Arithmetic mean (`ℚ`; the empty case does not arise: windows with
`min_periods=1` always contain the current value). -/
def mean (l : List ℚ) : ℚ := l.sum / (l.length : ℚ)

/-- `rolling(window=w, min_periods=1).mean()` as a history function. -/
def meanF (w : Nat) : List ℚ → ℚ → ℚ :=
  fun hist x => mean (lastN w (hist ++ [x]))

/-- `rolling(window=w, min_periods=1).std()` as a history function, modelled
by the *squared* std (the `ddof=1` sample variance): pandas returns `NaN`
exactly when the window holds a single observation, and the square root,
which is irrational in general, preserves both the `none` pattern and the
numeric values one-to-one on nonnegative rationals. -/
def varF (w : Nat) : List ℚ → ℚ → Option ℚ :=
  fun hist x =>
    let win := lastN w (hist ++ [x])
    if win.length ≤ 1 then none
    else some (((win.map (fun y => (y - mean win) ^ 2)).sum) / ((win.length : ℚ) - 1))

/-- `create_lagged_features` for one column and one lag. -/
def createLaggedCol (k : Nat) (rows : List PRow) : List (Option ℚ) :=
  groupedCol (lagF k) rows

/-- `create_rolling_features`, mean aggregate. -/
def createRollMeanCol (w : Nat) (rows : List PRow) : List ℚ :=
  groupedCol (meanF w) rows

/-- `create_rolling_features`, std aggregate (squared, see `varF`). -/
def createRollStdSqCol (w : Nat) (rows : List PRow) : List (Option ℚ) :=
  groupedCol (varF w) rows

/-- Single-series versions (a frame holding one nationality). -/
def lagList (k : Nat) (xs : List ℚ) : List (Option ℚ) :=
  listColFrom (lagF k) [] xs

def rollMeanList (w : Nat) (xs : List ℚ) : List ℚ :=
  listColFrom (meanF w) [] xs

def rollVarList (w : Nat) (xs : List ℚ) : List (Option ℚ) :=
  listColFrom (varF w) [] xs

theorem lastN_length {α : Type} (n : Nat) (l : List α) :
    (lastN n l).length = min n l.length := by
  simp only [lastN, List.length_drop]
  omega

/-- C5: per-nationality lag features.  (i) on the single chronological
sequence `[10,20,30,40,50]` the 1-lag column reads
`[null,10,20,30,40]`; (ii) restricted to any nationality `g`, the grouped
lag column equals the lag column of `g`'s own value sequence, so a lag never
reads an interleaved foreign row; (iii) entry `j` of a `k`-lag column is the
value `k` rows earlier in the same group and `null` for the first `k`
rows. -/
theorem C5_lagged_features :
    (lagList 1 [10, 20, 30, 40, 50]
        = [none, some 10, some 20, some 30, some 40])
    ∧ (∀ (rows : List PRow) (k : Nat) (g : String),
        ((rows.zip (createLaggedCol k rows)).filter
            (fun p => p.1.nat == g)).map Prod.snd
          = lagList k (groupSeq g rows))
    ∧ (∀ (xs : List ℚ) (k j : Nat), 1 ≤ k → j < xs.length →
        (lagList k xs)[j]? = some (if k ≤ j then xs[j - k]? else none)) := by
  refine ⟨by decide, ?_, ?_⟩
  · intro rows k g
    simpa using colAux_restrict (lagF k) g rows []
  · intro xs k j hk hj
    have hxe : xs[j]? = some xs[j] := List.getElem?_eq_getElem hj
    rw [lagList, listColFrom_get, hxe]
    have hlen : (xs.take j).length = j := by
      simp [List.length_take]; omega
    simp only [Option.map_some', lagF, List.nil_append, hlen]
    by_cases hkj : k ≤ j
    · rw [if_pos hkj, if_pos hkj, List.getElem?_take, if_pos (by omega)]
    · rw [if_neg hkj, if_neg hkj]

/-- C5 — witness: the third clause at `xs = [10,20,30,40,50]`, `k = 1`,
`j = 2` gives the in-group value one row earlier, `20`. -/
theorem C5_lagged_features_witness :
    (lagList 1 [10, 20, 30, 40, 50])[2]? = some (some 20) := by
  have h := C5_lagged_features.2.2 [10, 20, 30, 40, 50] 1 2 (by decide) (by decide)
  rw [h]
  decide

/-- C4 — counterexample.  The claim asserts that neither the rolling-mean
nor the rolling-std column contains nulls in the leading positions of any
group.  For the single-nationality frame with values `[10,20,30,40,50]` the
3-window rolling std (with `min_periods=1` and pandas' `ddof=1`) is `NaN` at
the group's first row — the sample std of one observation is undefined — so
the std column *does* start with a null. -/
theorem C4_counterexample :
    (createRollStdSqCol 3
        [⟨"Mexico", 10⟩, ⟨"Mexico", 20⟩, ⟨"Mexico", 30⟩,
         ⟨"Mexico", 40⟩, ⟨"Mexico", 50⟩])[0]?
      = some none := by
  decide

/-- C4 (amended): rolling features are computed within each nationality
group with `min_periods=1`; the 3-window rolling mean of `[10,20,30,40,50]`
is `[10,15,20,30,40]` (expanding until the window fills) and the rolling
mean has no leading nulls, but the rolling-std column is null at exactly the
first row of each group (single-observation sample std) and defined from the
second row on, for any nominal window `w ≥ 2`. -/
theorem C4_rolling_features :
    (rollMeanList 3 [10, 20, 30, 40, 50] = [10, 15, 20, 30, 40])
    ∧ (∀ (rows : List PRow) (w : Nat) (g : String),
        ((rows.zip (createRollMeanCol w rows)).filter
            (fun p => p.1.nat == g)).map Prod.snd
          = rollMeanList w (groupSeq g rows))
    ∧ (∀ (rows : List PRow) (w : Nat) (g : String),
        ((rows.zip (createRollStdSqCol w rows)).filter
            (fun p => p.1.nat == g)).map Prod.snd
          = rollVarList w (groupSeq g rows))
    ∧ (∀ (xs : List ℚ) (w j : Nat), 2 ≤ w → j < xs.length →
        ((rollVarList w xs)[j]? = some none ↔ j = 0)) := by
  refine ⟨by norm_num [rollMeanList, listColFrom, meanF, mean, lastN], ?_, ?_, ?_⟩
  · intro rows w g
    simpa using colAux_restrict (meanF w) g rows []
  · intro rows w g
    simpa using colAux_restrict (varF w) g rows []
  · intro xs w j hw hj
    have hxe : xs[j]? = some xs[j] := List.getElem?_eq_getElem hj
    rw [rollVarList, listColFrom_get, hxe]
    have hlen : ((xs.take j) ++ [xs[j]]).length = j + 1 := by
      simp [List.length_take]; omega
    simp only [Option.map_some', varF, List.nil_append, Option.some_inj]
    have hwin : (lastN w (xs.take j ++ [xs[j]])).length = min w (j + 1) := by
      rw [lastN_length, hlen]
    constructor
    · intro hnone
      by_contra hj0
      rw [if_neg (by omega : ¬ (lastN w (xs.take j ++ [xs[j]])).length ≤ 1)] at hnone
      exact Option.some_ne_none _ hnone
    · intro hj0
      subst hj0
      rw [if_pos (by omega)]

/-- C4 — witness: the null-pattern clause at `xs = [10,20,30,40,50]`,
`w = 3`, `j = 0`: the std column's first entry is null. -/
theorem C4_rolling_features_witness :
    (rollVarList 3 [10, 20, 30, 40, 50])[0]? = some none :=
  (C4_rolling_features.2.2.2 [10, 20, 30, 40, 50] 3 0 (by decide) (by decide)).mpr rfl

/-! ## C2 — combining the two overlapping source tables

The repository combines the 2013-present and 2019-present encounter tables
twice, with different winners on overlapping `(Nationality, month)` keys:

* `preprocess_migration_data.py` lines 77-92: keeps all of the
  2013-present base table and appends only those 2019-present rows whose
  `MergeKey` is absent from the base — on an overlap the 2013 value wins;
* `unified_processing_script.py` lines 88-90:
  `concat([df_2013, df_2019]).sort_values("Date").drop_duplicates(["Nationality","Date"], keep="last")`
  — with a stable sort the 2019-present (primary, more recent) value wins.
  (The final re-sort by (Nationality, Date) only permutes rows and does not
  change which row carries each key.) -/

structure ORow where
  nat : String
  date : Nat
  enc : ℤ
deriving DecidableEq

/-- The `(Nationality, month)` merge key. -/
def okey (r : ORow) : String × Nat := (r.nat, r.date)

/-- The module-level combine of `preprocess_migration_data.py`: base table
plus the newer rows whose key is not already present. -/
def combinePreprocess (d13 d19 : List ORow) : List ORow :=
  d13 ++ d19.filter (fun r => !(d13.any (fun s => okey s == okey r)))

/-- The combine of `unified_processing_script.py` (lines 88-90). -/
def combinedUnified (d13 d19 : List ORow) : List ORow :=
  keepLastBy okey (sortBy ORow.date (d13 ++ d19))

/-- In a list with `Nodup` keys, filtering by the key of a member yields
exactly that member. -/
theorem filter_key_of_nodup {α κ : Type} [DecidableEq κ] (key : α → κ) :
    ∀ (l : List α), ((l.map key).Nodup) → ∀ r ∈ l,
      l.filter (fun a => decide (key a = key r)) = [r] := by
  intro l
  induction l with
  | nil => intro _ r hr; cases hr
  | cons x t ih =>
    intro hnd r hr
    rw [List.map_cons] at hnd
    have hnd2 := List.nodup_cons.mp hnd
    rcases List.mem_cons.mp hr with hrx | hrt
    · subst hrx
      rw [List.filter_cons_of_pos (by simp)]
      have ht : t.filter (fun a => decide (key a = key r)) = [] := by
        rw [List.filter_eq_nil_iff]
        intro a ha hpa
        have hka : key a = key r := of_decide_eq_true hpa
        exact hnd2.1 (List.mem_map.mpr ⟨a, ha, hka⟩)
      rw [ht]
    · have hx : key x ≠ key r := by
        intro h
        exact hnd2.1 (List.mem_map.mpr ⟨r, hrt, h.symm⟩)
      rw [List.filter_cons_of_neg (by simp [hx])]
      exact ih hnd2.2 r hrt

/-- C2 — counterexample. With the key (Mexico, month 700) present in both
tables — value 100 in the 2013-present table, 200 in the primary
2019-present table — the module-level combine of
`preprocess_migration_data.py` retains the 2013 value 100, not the primary
source's 200 (which the unified script's combine would retain). -/
theorem C2_counterexample :
    combinePreprocess [⟨"Mexico", 700, 100⟩] [⟨"Mexico", 700, 200⟩]
        = [⟨"Mexico", 700, 100⟩]
    ∧ combinedUnified [⟨"Mexico", 700, 100⟩] [⟨"Mexico", 700, 200⟩]
        = [⟨"Mexico", 700, 200⟩]
    ∧ (100 : ℤ) ≠ 200 := by
  refine ⟨by decide, by decide, by decide⟩

/-- C2 (amended): the unified script's combine
(`concat` → stable sort by date → `drop_duplicates(keep="last")`) leaves at
most one row per (nationality, month) key, and whenever a key occurs in both
source tables (each holding at most one row per key) the retained row is the
2019-present (primary) one; the standalone `preprocess_migration_data.py`
combine instead retains the 2013-present base row on overlapping keys. -/
theorem C2_dedup_primary_wins :
    (∀ d13 d19 : List ORow, ((combinedUnified d13 d19).map okey).Nodup)
    ∧ (∀ d13 d19 : List ORow,
        (d13.map okey).Nodup → (d19.map okey).Nodup →
        ∀ r1 ∈ d19, ∀ r2 ∈ d13, okey r1 = okey r2 →
          (combinedUnified d13 d19).filter
              (fun a => decide (okey a = okey r1)) = [r1])
    ∧ (∀ d13 d19 : List ORow,
        (d13.map okey).Nodup →
        ∀ r2 ∈ d13,
          (combinePreprocess d13 d19).filter
              (fun a => decide (okey a = okey r2)) = [r2]) := by
  refine ⟨?_, ?_, ?_⟩
  · intro d13 d19
    exact keepLastBy_keys_nodup okey _
  · intro d13 d19 h13 h19 r1 hr1 r2 hr2 hkey
    rw [combinedUnified, keepLastBy_filter okey (okey r1)]
    have hsort : (sortBy ORow.date (d13 ++ d19)).filter
        (fun a => decide (okey a = okey r1))
          = (d13 ++ d19).filter (fun a => decide (okey a = okey r1)) := by
      refine filter_sortBy ORow.date _ r1.date _ ?_
      intro a ha
      have hko : okey a = okey r1 := of_decide_eq_true ha
      exact congrArg Prod.snd hko
    rw [hsort, List.filter_append]
    have h2 : d13.filter (fun a => decide (okey a = okey r1)) = [r2] := by
      rw [hkey]
      exact filter_key_of_nodup okey d13 h13 r2 hr2
    have h1 : d19.filter (fun a => decide (okey a = okey r1)) = [r1] :=
      filter_key_of_nodup okey d19 h19 r1 hr1
    rw [h1, h2]
    rfl
  · intro d13 d19 h13 r2 hr2
    rw [combinePreprocess, List.filter_append]
    have h2 : d13.filter (fun a => decide (okey a = okey r2)) = [r2] :=
      filter_key_of_nodup okey d13 h13 r2 hr2
    have h1 : (d19.filter (fun r => !(d13.any (fun s => okey s == okey r)))).filter
        (fun a => decide (okey a = okey r2)) = [] := by
      rw [List.filter_filter, List.filter_eq_nil_iff]
      intro a ha hpa
      have hand := (Bool.and_eq_true _ _).mp hpa
      have hko : okey a = okey r2 := of_decide_eq_true hand.1
      have hnot : ∀ s ∈ d13, ¬ okey s = okey a := by
        simpa [List.any_eq_false] using hand.2
      exact hnot r2 hr2 hko.symm
    rw [h2, h1]
    simp

/-- C2 — witness for the amended theorem on concrete two-row tables with an
overlapping key: the unified combine keeps the 2019 row, the preprocess
combine keeps the 2013 row. -/
theorem C2_dedup_primary_wins_witness :
    (combinedUnified [⟨"Cuba", 31, 7⟩] [⟨"Cuba", 31, 9⟩]).filter
        (fun a => decide (okey a = okey (⟨"Cuba", 31, 9⟩ : ORow))) = [⟨"Cuba", 31, 9⟩]
    ∧ (combinePreprocess [⟨"Cuba", 31, 7⟩] [⟨"Cuba", 31, 9⟩]).filter
        (fun a => decide (okey a = okey (⟨"Cuba", 31, 7⟩ : ORow))) = [⟨"Cuba", 31, 7⟩] :=
  ⟨C2_dedup_primary_wins.2.1 [⟨"Cuba", 31, 7⟩] [⟨"Cuba", 31, 9⟩]
      (by decide) (by decide) ⟨"Cuba", 31, 9⟩ (by decide) ⟨"Cuba", 31, 7⟩ (by decide)
      (by decide),
    C2_dedup_primary_wins.2.2 [⟨"Cuba", 31, 7⟩] [⟨"Cuba", 31, 9⟩]
      (by decide) ⟨"Cuba", 31, 7⟩ (by decide)⟩

/-! ## C1 — lag-then-broadcast for global (US economic) covariates

The repository lags the broadcast economic columns twice, in different ways:

* `unified_processing_script.py` lines 231-238: the fused table is projected
  to `["Date"] + econ_cols`, deduplicated by `Date` (keep first), sorted by
  `Date`, each economic column is shifted by each lag on that global series,
  and the lag columns are merged back onto the fused table by `Date`
  (`how="left"`) — lag once, then broadcast;
* `feature_engineering.py` lines 71-101 (the claim's other cited site,
  lines 93-97 in particular): the *already-broadcast* column is shifted over
  the whole panel sorted by `Date`
  (`sort_values("Date")`, `master_df[col].shift(lag)`,
  `reindex(original_index).sort_index()`), so with several nationalities per
  month a row's "lag" is usually another nationality's value of the *same*
  month — broadcast first, then shift.

A fused row here carries its nationality, its month and one representative
broadcast economic column. -/

structure BRow where
  nat : String
  date : Nat
  econ : ℚ
deriving DecidableEq

/-- `drop_duplicates(subset=["Date"]).sort_values("Date")` applied to the
fused table's `(Date, econ)` projection — the deduplicated global series. -/
def globalSeries (rows : List BRow) : List BRow :=
  sortBy BRow.date (dedupBy BRow.date rows)

/-- `Series.shift(k)`: entry `i` is the value `k` positions earlier, `NaN`
(= `none`) for the first `k` positions. -/
def shiftSeries (k : Nat) (xs : List ℚ) : List (Option ℚ) :=
  (List.range xs.length).map (fun i => if k ≤ i then xs[i - k]? else none)

/-- The `(Date, lagged value)` table merged back onto the fused frame. -/
def lagTable (k : Nat) (rows : List BRow) : List (Nat × Option ℚ) :=
  ((globalSeries rows).map BRow.date).zip
    (shiftSeries k ((globalSeries rows).map BRow.econ))

/-- `pd.merge(master, lag_table, on="Date", how="left")`: each fused row is
paired with the lagged value found for its month (`none` both for a missing
month and for a `NaN` lag, as in pandas). -/
def joinLagByDate (k : Nat) (rows : List BRow) : List (BRow × Option ℚ) :=
  rows.map (fun r =>
    (r, ((lagTable k rows).find? (fun p => p.1 == r.date)).bind Prod.snd))

/-- The econ lag of `feature_engineering.py` lines 93-97: remember the
original row positions, sort the whole panel by `Date` (stable), shift the
already-broadcast column by `k` over that sorted frame, then
`reindex(original_index).sort_index()` — i.e. read each row's shifted value
back at its original position. -/
def econLagFE (k : Nat) (rows : List BRow) : List (BRow × Option ℚ) :=
  let indexed := (List.range rows.length).zip rows
  let sorted := sortBy (fun p => p.2.date) indexed
  let tagged := sorted.zip (shiftSeries k (sorted.map (fun p => p.2.econ)))
  (List.range rows.length).filterMap (fun i =>
    (tagged.find? (fun q => q.1.1 == i)).map (fun q => (q.1.2, q.2)))

/-- The concrete broadcast panel refuting C1 at the `feature_engineering.py`
site: two nationalities over months 100-101, the economic value broadcast
per month. -/
def c1ferows : List BRow :=
  [⟨"Mexico", 100, 5⟩, ⟨"Mexico", 101, 6⟩,
   ⟨"Guatemala", 100, 5⟩, ⟨"Guatemala", 101, 6⟩]

/-- C1 — counterexample.  The claim (citing `feature_engineering.py` lines
71-101 among its sources) asserts that for every lag `k` and every month all
nationalities' rows of that month carry the identical lagged value, equal to
the global value `k` months earlier.  The `feature_engineering.py` block
shifts the already-broadcast column over the date-sorted panel, so on
`c1ferows` with lag 1 the two rows of month 100 receive `none` (Mexico) and
`some 5` (Guatemala) — different values, and Guatemala's "lag" is month
100's own value, not the value one month earlier. -/
theorem C1_counterexample :
    econLagFE 1 c1ferows
      = [(⟨"Mexico", 100, 5⟩, none), (⟨"Mexico", 101, 6⟩, some 5),
         (⟨"Guatemala", 100, 5⟩, some 5), (⟨"Guatemala", 101, 6⟩, some 6)]
    ∧ (⟨"Mexico", 100, 5⟩ : BRow).date = (⟨"Guatemala", 100, 5⟩ : BRow).date
    ∧ (none : Option ℚ) ≠ some 5 := by
  refine ⟨by decide, by decide, by decide⟩

theorem zip_getElem? {α β : Type} :
    ∀ (l : List α) (m : List β) (j : Nat),
      (l.zip m)[j]? = (l[j]?).bind (fun a => (m[j]?).map (fun b => (a, b))) := by
  intro l
  induction l with
  | nil => intro m j; simp
  | cons a l ih =>
    intro m j
    cases m with
    | nil => cases j <;> simp
    | cons b m =>
      cases j with
      | zero => simp
      | succ j => simpa using ih m j

theorem shiftSeries_getElem? (k : Nat) (xs : List ℚ) (j : Nat)
    (hj : j < xs.length) :
    (shiftSeries k xs)[j]? = some (if k ≤ j then xs[j - k]? else none) := by
  simp [shiftSeries, List.getElem?_map, List.getElem?_range, hj]

/-- In a table whose `j`-th key is `d0 + j`, `find?` by the key `d0 + i`
returns exactly the `i`-th entry. -/
theorem find_arith {β : Type} :
    ∀ (T : List (Nat × β)) (d0 : Nat),
      (∀ j p, T[j]? = some p → p.1 = d0 + j) →
      ∀ i p, T[i]? = some p → T.find? (fun q => q.1 == d0 + i) = some p := by
  intro T
  induction T with
  | nil => intro d0 _ i p hp; simp at hp
  | cons t ts ih =>
    intro d0 hkeys i p hp
    have ht : t.1 = d0 := by simpa using hkeys 0 t (by simp)
    cases i with
    | zero =>
      have hpt : t = p := by simpa using hp
      subst hpt
      simp [List.find?, ht]
    | succ i =>
      rw [List.find?_cons_of_neg _ (by simp only [beq_iff_eq, ht]; omega)]
      have hts : ∀ j q, ts[j]? = some q → q.1 = (d0 + 1) + j := by
        intro j q hq
        have := hkeys (j + 1) q (by simpa using hq)
        omega
      have := ih (d0 + 1) hts i p (by simpa using hp)
      have harith : d0 + 1 + i = d0 + (i + 1) := by omega
      rwa [harith] at this

/-- Every month of the fused table appears among the dates of the
deduplicated sorted global series. -/
theorem globalSeries_date_mem (rows : List BRow) (r : BRow) (hr : r ∈ rows) :
    r.date ∈ (globalSeries rows).map BRow.date := by
  unfold globalSeries
  have h1 : r.date ∈ rows.map BRow.date := List.mem_map.mpr ⟨r, hr, rfl⟩
  have h2 : r.date ∈ (dedupBy BRow.date rows).map BRow.date :=
    (dedupBy_keys_mem _ _ _).mpr h1
  exact ((sortBy_perm BRow.date (dedupBy BRow.date rows)).map BRow.date).mem_iff.mpr h2

/-- Every element of the global series is one of the fused rows. -/
theorem globalSeries_subset (rows : List BRow) (ρ : BRow)
    (hρ : ρ ∈ globalSeries rows) : ρ ∈ rows :=
  dedupBy_subset BRow.date rows ρ ((mem_sortBy _ _ _).mp hρ)

/-- C1 (amended): in the unified script's econ lag block — lagging the
global covariate once on the deduplicated, date-sorted series and re-joining
by month — the claimed property holds: (i) two fused rows of the same month
always receive the identical lagged value, whatever their nationalities;
(ii) if the broadcast is coherent (same month ⇒ same economic value) and the
global series covers consecutive months starting at `d0`, then each fused
row dated `< d0 + k` receives null and each row dated `s.date + k` for some
fused row `s` receives exactly the global value of the month `k` months
earlier.  The `feature_engineering.py` variant, which shifts the broadcast
column over the date-sorted panel instead, violates both parts, as the
counterexample above shows on a concrete two-nationality panel. -/
theorem C1_global_econ_lag :
    (∀ (k : Nat) (rows : List BRow), ∀ a ∈ joinLagByDate k rows,
        ∀ b ∈ joinLagByDate k rows, a.1.date = b.1.date → a.2 = b.2)
    ∧ (∀ (k : Nat) (rows : List BRow) (d0 : Nat),
        (∀ r ∈ rows, ∀ s ∈ rows, r.date = s.date → r.econ = s.econ) →
        (∀ j p, (globalSeries rows)[j]? = some p → p.date = d0 + j) →
        ∀ a ∈ joinLagByDate k rows,
          (a.1.date < d0 + k → a.2 = none)
          ∧ (∀ s ∈ rows, s.date + k = a.1.date → a.2 = some s.econ)) := by
  constructor
  · intro k rows a ha b hb hdate
    rcases List.mem_map.mp ha with ⟨r, _, rfl⟩
    rcases List.mem_map.mp hb with ⟨s, _, rfl⟩
    simp only at hdate ⊢
    rw [hdate]
  · intro k rows d0 hb hc a ha
    rcases List.mem_map.mp ha with ⟨r, hr, rfl⟩
    dsimp only
    -- locate r.date in the global series
    have hdm := globalSeries_date_mem rows r hr
    rcases List.mem_iff_getElem?.mp hdm with ⟨i, hi⟩
    rw [List.getElem?_map] at hi
    rcases Option.map_eq_some'.mp hi with ⟨ρ, hρget, hρdate⟩
    have hilen : i < (globalSeries rows).length := by
      by_contra hcon
      push_neg at hcon
      rw [List.getElem?_eq_none hcon] at hρget
      cases hρget
    have hrdate : r.date = d0 + i := by rw [← hρdate, hc i ρ hρget]
    -- the joined value is lag-table entry i
    have hTget : (lagTable k rows)[i]?
        = some (((globalSeries rows).map BRow.date)[i]?.getD 0,
            if k ≤ i then ((globalSeries rows).map BRow.econ)[i - k]? else none) := by
      rw [lagTable, zip_getElem?]
      rw [shiftSeries_getElem? k _ i (by simpa using hilen)]
      rw [List.getElem?_map, hρget]
      simp [hρdate]
    have hTkeys : ∀ j p, (lagTable k rows)[j]? = some p → p.1 = d0 + j := by
      intro j p hp
      rw [lagTable, zip_getElem?] at hp
      rcases Option.bind_eq_some.mp hp with ⟨d, hd, hrest⟩
      rcases Option.map_eq_some'.mp hrest with ⟨v, _, hpair⟩
      rw [List.getElem?_map] at hd
      rcases Option.map_eq_some'.mp hd with ⟨q, hq, hqd⟩
      rw [← hpair]
      simp only
      rw [← hqd]
      exact hc j q hq
    have hfind := find_arith (lagTable k rows) d0 hTkeys i _ hTget
    have hjoin : ((lagTable k rows).find? (fun p => p.1 == r.date)).bind Prod.snd
        = if k ≤ i then ((globalSeries rows).map BRow.econ)[i - k]? else none := by
      rw [hrdate, hfind]
      rfl
    constructor
    · intro hlt
      rw [hjoin, if_neg (by omega : ¬ k ≤ i)]
    · intro s hs hsk
      have hsm := globalSeries_date_mem rows s hs
      rcases List.mem_iff_getElem?.mp hsm with ⟨i2, hi2⟩
      rw [List.getElem?_map] at hi2
      rcases Option.map_eq_some'.mp hi2 with ⟨ρs, hρsget, hρsdate⟩
      have hsdate : s.date = d0 + i2 := by rw [← hρsdate, hc i2 ρs hρsget]
      have hki : k ≤ i := by omega
      have hik : i - k < (globalSeries rows).length := by omega
      have hρ2get : (globalSeries rows)[i - k]? = some (globalSeries rows)[i - k] :=
        List.getElem?_eq_getElem hik
      have hρ2date : ((globalSeries rows)[i - k]).date = s.date := by
        have := hc (i - k) _ hρ2get
        omega
      have hρ2mem : (globalSeries rows)[i - k] ∈ rows :=
        globalSeries_subset rows _ (List.getElem_mem hik)
      have hecon : ((globalSeries rows)[i - k]).econ = s.econ :=
        hb _ hρ2mem s hs hρ2date
      rw [hjoin, if_pos hki, List.getElem?_map, hρ2get]
      simp [hecon]

/-- The concrete two-nationality fused table used by the C1 witness:
months 100-102, one economic value broadcast to both nationalities of each
month. -/
def c1rows : List BRow :=
  [⟨"Mexico", 100, 5⟩, ⟨"Mexico", 101, 6⟩, ⟨"Mexico", 102, 7⟩,
   ⟨"Guatemala", 100, 5⟩, ⟨"Guatemala", 101, 6⟩, ⟨"Guatemala", 102, 7⟩]

/-- C1 — witness: on `c1rows` with lag 1, the fused row of Guatemala in
month 101 receives the global economic value of month 100, namely `5`. -/
theorem C1_global_econ_lag_witness :
    ((joinLagByDate 1 c1rows).getD 4 (⟨"", 0, 0⟩, none)).2 = some 5 := by
  have hmem : (joinLagByDate 1 c1rows).getD 4 (⟨"", 0, 0⟩, none)
      ∈ joinLagByDate 1 c1rows := by decide
  have hg : globalSeries c1rows
      = [⟨"Mexico", 100, 5⟩, ⟨"Mexico", 101, 6⟩, ⟨"Mexico", 102, 7⟩] := by decide
  have hc : ∀ j p, (globalSeries c1rows)[j]? = some p → p.date = 100 + j := by
    intro j p hp
    rw [hg] at hp
    rcases j with _ | _ | _ | j
    · cases hp; rfl
    · cases hp; rfl
    · cases hp; rfl
    · simp at hp
  exact (C1_global_econ_lag.2 1 c1rows 100 (by decide) hc _ hmem).2
    ⟨"Mexico", 100, 5⟩ (by decide) (by decide)

/-! ## C7 — per-column fill of missing covariates (`estimate_rf_models.py`)

Lines 19-24: if the distance column has any null, fill with the mean of its
non-null values (0 if the whole column is null); lines 26-27: fill the GDELT
count column with zero.  This runs on the final fused CSV, i.e. after every
join of the unified script.  The unified script's own zero-fill of the GDELT
column (line 220) happens just before the final lagged-econ join, but it
commutes with that join (last clause below), so the observable table is the
one obtained by filling only after all joins. -/

/-- The available (non-null) values of a column. -/
def availVals (col : List (Option ℚ)) : List ℚ := col.filterMap id

/-- The fallback fill value: mean of available values, 0 if none
(`mean_distance` with the `pd.isna` guard). -/
def fallbackMean (col : List (Option ℚ)) : ℚ :=
  if (availVals col).isEmpty then 0
  else (availVals col).sum / ((availVals col).length : ℚ)

/-- Lines 19-24: conditional mean-fill of the distance column. -/
def fillDistance (col : List (Option ℚ)) : List (Option ℚ) :=
  if col.any (fun o => o.isNone) then
    col.map (fun o => some (o.getD (fallbackMean col)))
  else col

/-- Lines 26-27: `fillna(0)` of the count-type column. -/
def fillEventZero (col : List (Option ℚ)) : List (Option ℚ) :=
  col.map (fun o => some (o.getD 0))

/-- A generic left-merge by date used to state that filling commutes with a
later join: every row is paired with the value its date finds in `tbl`. -/
def attachByDate (tbl : List (Nat × Option ℚ)) (rows : List (Nat × Option ℚ)) :
    List ((Nat × Option ℚ) × Option ℚ) :=
  rows.map (fun r => (r, (tbl.find? (fun p => p.1 == r.1)).bind Prod.snd))

/-- C7: after the fill block every entry of the distance column is non-null;
entries that had a matched value keep it, and previously-null entries hold
the mean of the available values (0 when no value was available);
count-type nulls become exactly 0; and zero-filling a column commutes with a
subsequent left join by date, so filling before the last join yields the
same table as filling after all joins. -/
theorem C7_covariate_fill :
    (∀ (col : List (Option ℚ)), ∀ o ∈ fillDistance col, o.isSome)
    ∧ (∀ (col : List (Option ℚ)) (i : Nat) (v : ℚ),
        col[i]? = some (some v) → (fillDistance col)[i]? = some (some v))
    ∧ (∀ (col : List (Option ℚ)) (i : Nat),
        col[i]? = some none →
          (fillDistance col)[i]? = some (some (fallbackMean col)))
    ∧ (∀ (col : List (Option ℚ)) (i : Nat),
        col[i]? = some none → (fillEventZero col)[i]? = some (some 0))
    ∧ (∀ (tbl rows : List (Nat × Option ℚ)),
        attachByDate tbl (rows.map (fun r => (r.1, some (r.2.getD 0))))
          = (attachByDate tbl rows).map
              (fun q => ((q.1.1, some (q.1.2.getD 0)), q.2))) := by
  refine ⟨?_, ?_, ?_, ?_, ?_⟩
  · intro col o ho
    rw [fillDistance] at ho
    split at ho
    · rcases List.mem_map.mp ho with ⟨x, _, rfl⟩
      rfl
    · rename_i hnone
      simp only [Bool.not_eq_true, List.any_eq_false] at hnone
      have := hnone o ho
      cases o
      · simp at this
      · rfl
  · intro col i v hi
    rw [fillDistance]
    split
    · rw [List.getElem?_map, hi]
      rfl
    · exact hi
  · intro col i hi
    have hmem : (none : Option ℚ) ∈ col := by
      have h1 : i < col.length := by
        by_contra hcon
        push_neg at hcon
        rw [List.getElem?_eq_none hcon] at hi
        cases hi
      have h2 : col[i] = none := by
        have := List.getElem?_eq_getElem h1
        rw [hi] at this
        exact (Option.some_inj.mp this).symm
      rw [← h2]
      exact List.getElem_mem h1
    rw [fillDistance, if_pos (List.any_eq_true.mpr ⟨none, hmem, rfl⟩)]
    rw [List.getElem?_map, hi]
    rfl
  · intro col i hi
    rw [fillEventZero, List.getElem?_map, hi]
    rfl
  · intro tbl rows
    simp only [attachByDate, List.map_map]
    rfl

/-- C7 — witness: the column `[some 4, none]` has its null filled with the
mean of the available values, `4`, and the count column's null becomes 0. -/
theorem C7_covariate_fill_witness :
    (fillDistance [some 4, none])[1]? = some (some 4)
    ∧ (fillEventZero [some 4, none])[1]? = some (some 0) := by
  constructor
  · have h := C7_covariate_fill.2.2.1 [some 4, none] 1 (by decide)
    rw [h]
    have hm : fallbackMean [some 4, none] = 4 := by
      norm_num [fallbackMean, availVals, List.filterMap_cons]
    rw [hm]
  · exact C7_covariate_fill.2.2.2.1 [some 4, none] 1 (by decide)

/-! ## C9 — chronological train/test split (`estimate_rf_models.py`)

Lines 61-92: `df_cleaned` is sorted by `Date`; the unique dates are sorted;
`split_date = unique_dates_sorted[int(len*0.8)]`; `train = Date < split_date`,
`test = Date >= split_date`; if the test set is empty or smaller than 10% of
the rows, the code falls back to an 80/20 *row* split of the date-sorted
frame; with fewer than 5 unique dates it uses `train_test_split` with
shuffling (that nondeterministic branch is modelled as `none`).
`int(len * 0.8)` is modelled as `4 * len / 5` in natural division. -/

structure SRow where
  date : Nat
  id : Nat
deriving DecidableEq

/-- `np.sort(df["Date"].unique())`. -/
def uniqueDatesSorted (rows : List SRow) : List Nat :=
  sortBy (fun d => d) (dedupBy (fun d => d) (rows.map SRow.date))

/-- `split_date = unique_dates_sorted[int(len * 0.8)]`. -/
def splitDateOf (rows : List SRow) : Nat :=
  (uniqueDatesSorted rows).getD ((4 * (uniqueDatesSorted rows).length) / 5) 0

/-- `train_df = df_cleaned[df_cleaned.Date < split_date]`. -/
def mainTrain (rows : List SRow) : List SRow :=
  (sortBy SRow.date rows).filter (fun r => r.date < splitDateOf rows)

/-- `test_df = df_cleaned[df_cleaned.Date >= split_date]`. -/
def mainTest (rows : List SRow) : List SRow :=
  (sortBy SRow.date rows).filter (fun r => splitDateOf rows ≤ r.date)

/-- The train-test split block (lines 61-92).  `none` models the shuffled
`train_test_split` branch taken with fewer than 5 unique dates. -/
def splitBlock (rows : List SRow) : Option (List SRow × List SRow) :=
  if (uniqueDatesSorted rows).length < 5 then none
  else if (mainTest rows).length = 0
      ∨ 10 * (mainTest rows).length < (sortBy SRow.date rows).length then
    some ((sortBy SRow.date rows).take ((4 * (sortBy SRow.date rows).length) / 5),
          (sortBy SRow.date rows).drop ((4 * (sortBy SRow.date rows).length) / 5))
  else some (mainTrain rows, mainTest rows)

/-- The concrete frame refuting C9: five unique dates 0-4 over 20 rows, with
only one row dated 4. -/
def c9rows : List SRow :=
  [⟨0, 0⟩, ⟨0, 1⟩, ⟨0, 2⟩, ⟨0, 3⟩, ⟨0, 4⟩,
   ⟨1, 5⟩, ⟨1, 6⟩, ⟨1, 7⟩, ⟨1, 8⟩, ⟨1, 9⟩,
   ⟨2, 10⟩, ⟨2, 11⟩, ⟨2, 12⟩, ⟨2, 13⟩, ⟨2, 14⟩,
   ⟨3, 15⟩, ⟨3, 16⟩, ⟨3, 17⟩, ⟨3, 18⟩,
   ⟨4, 19⟩]

/-- C9 — counterexample.  On `c9rows` the sorted unique dates are
`[0,1,2,3,4]` and the split date at the 80% position is `4`; the
date-threshold test set holds a single row (5% of 20), so the code falls
back to the 80/20 row split, after which the rows dated `3` — strictly
before the split date — are split across both sets: `⟨3,15⟩` lands in
training but `⟨3,16⟩` lands in test, contradicting the claim that every row
dated strictly before the split date goes to the training set. -/
theorem C9_counterexample :
    uniqueDatesSorted c9rows = [0, 1, 2, 3, 4]
    ∧ splitDateOf c9rows = 4
    ∧ (splitBlock c9rows).map
        (fun p => decide ((⟨3, 15⟩ : SRow) ∈ p.1)
          && decide ((⟨3, 16⟩ : SRow) ∈ p.2)) = some true := by
  refine ⟨by decide, by decide, by decide⟩

/-- C9 (amended): the sorted unique dates are strictly increasing; whenever
the date-threshold test set (rows dated at or after the date at the 80%
position) is nonempty and holds at least 10% of the rows, the split is
exactly train = rows dated strictly before the split date, test = rows dated
at or after it; rows of the train set are all dated strictly before the
split date and rows of the test set at or after it; and in every
deterministic branch (including the 80/20 row fallback) no training row is
dated later than any test row. -/
theorem C9_time_split :
    (∀ rows : List SRow, (uniqueDatesSorted rows).Pairwise (fun a b => a < b))
    ∧ (∀ rows : List SRow,
        ¬ ((uniqueDatesSorted rows).length < 5) →
        ¬ ((mainTest rows).length = 0
            ∨ 10 * (mainTest rows).length < (sortBy SRow.date rows).length) →
        splitBlock rows = some (mainTrain rows, mainTest rows))
    ∧ (∀ rows : List SRow,
        (∀ a ∈ mainTrain rows, a.date < splitDateOf rows)
        ∧ (∀ b ∈ mainTest rows, splitDateOf rows ≤ b.date))
    ∧ (∀ (rows : List SRow) (tr te : List SRow),
        splitBlock rows = some (tr, te) →
        ∀ a ∈ tr, ∀ b ∈ te, a.date ≤ b.date) := by
  refine ⟨?_, ?_, ?_, ?_⟩
  · intro rows
    have h1 : (dedupBy (fun d => d) (rows.map SRow.date)).Nodup := by
      have := dedupBy_keys_nodup (fun d => d) (rows.map SRow.date)
      simpa using this
    have hnd : (uniqueDatesSorted rows).Nodup :=
      ((sortBy_perm (fun d => d) _).nodup_iff).mpr h1
    have hs : (uniqueDatesSorted rows).Pairwise (fun a b => a ≤ b) :=
      sortBy_sorted (fun d => d) _
    exact (hs.and hnd).imp (fun h => lt_of_le_of_ne h.1 h.2)
  · intro rows h1 h2
    rw [splitBlock, if_neg h1, if_neg h2]
  · intro rows
    constructor
    · intro a ha
      exact of_decide_eq_true (List.mem_filter.mp ha).2
    · intro b hb
      exact of_decide_eq_true (List.mem_filter.mp hb).2
  · intro rows tr te hsp a ha b hb
    rw [splitBlock] at hsp
    split at hsp
    · cases hsp
    · split at hsp
      · rcases Option.some_inj.mp hsp with h
        have htr : tr = (sortBy SRow.date rows).take
            ((4 * (sortBy SRow.date rows).length) / 5) := congrArg Prod.fst h.symm
        have hte : te = (sortBy SRow.date rows).drop
            ((4 * (sortBy SRow.date rows).length) / 5) := congrArg Prod.snd h.symm
        subst htr
        subst hte
        have hs := sortBy_sorted SRow.date rows
        rw [← List.take_append_drop ((4 * (sortBy SRow.date rows).length) / 5)
            (sortBy SRow.date rows)] at hs
        exact (List.pairwise_append.mp hs).2.2 a ha b hb
      · rcases Option.some_inj.mp hsp with h
        have htr : tr = mainTrain rows := congrArg Prod.fst h.symm
        have hte : te = mainTest rows := congrArg Prod.snd h.symm
        subst htr
        subst hte
        have h1 : a.date < splitDateOf rows :=
          of_decide_eq_true (List.mem_filter.mp ha).2
        have h2 : splitDateOf rows ≤ b.date :=
          of_decide_eq_true (List.mem_filter.mp hb).2
        omega

/-- A balanced frame (five unique dates, two rows each) on which the split
stays in its main date-threshold branch. -/
def c9wit : List SRow :=
  [⟨0, 0⟩, ⟨0, 1⟩, ⟨1, 2⟩, ⟨1, 3⟩, ⟨2, 4⟩,
   ⟨2, 5⟩, ⟨3, 6⟩, ⟨3, 7⟩, ⟨4, 8⟩, ⟨4, 9⟩]

/-- C9 — witness: on `c9wit` the guards hold, the split is the exact
date-threshold one, and a training row is never dated later than a test
row. -/
theorem C9_time_split_witness :
    splitBlock c9wit = some (mainTrain c9wit, mainTest c9wit)
    ∧ (⟨0, 0⟩ : SRow).date ≤ (⟨4, 8⟩ : SRow).date := by
  have h2 := C9_time_split.2.1 c9wit (by decide) (by decide)
  refine ⟨h2, ?_⟩
  exact C9_time_split.2.2.2 c9wit (mainTrain c9wit) (mainTest c9wit) h2
    ⟨0, 0⟩ (by decide) ⟨4, 8⟩ (by decide)

/-! ## C8 — behaviour of the unified pipeline on empty covariate tables

Shallow model of the covariate section of `unified_processing_script.py`
(lines 206-238) with one representative economic column and one lag.  The
merges are guarded by `if not table.empty`; when a merge is skipped its
columns never exist in the frame, so

* line 218 (`pd.merge(..., on=["MonthYear", "FIPS_CountryCode"])`) raises
  `KeyError` when the distance merge was skipped (no `FIPS_CountryCode`
  column) and the GDELT table is non-empty;
* line 232 (`master_df[["Date"] + econ_cols_to_lag]`) raises `KeyError`
  whenever the econ merge was skipped.

`Except.error` carries the offending key. -/

structure MigR where
  nat : String
  date : Nat
  enc : ℤ
deriving DecidableEq

structure DistR where
  nat : String
  fips : String
  dist : ℚ
deriving DecidableEq

structure EconR where
  date : Nat
  hosp : ℚ
deriving DecidableEq

/-- A daily GDELT event row already truncated to its month. -/
structure GdR where
  month : Nat
  fips : String
  cnt : ℤ
deriving DecidableEq

structure FusedR where
  nat : String
  date : Nat
  enc : ℤ
  fips : Option String
  dist : Option ℚ
  hosp : Option ℚ
  gdelt : ℤ
  hospLag1 : Option ℚ
deriving DecidableEq

/-- Left-merge of the per-country distance table onto a migration row. -/
def mergeDistance (dist : List DistR) (m : MigR) : FusedR :=
  match dist.find? (fun d => d.nat == m.nat) with
  | some d => ⟨m.nat, m.date, m.enc, some d.fips, some d.dist, none, 0, none⟩
  | none => ⟨m.nat, m.date, m.enc, none, none, none, 0, none⟩

/-- Left-merge of the monthly economic table onto a fused row. -/
def mergeEcon (econ : List EconR) (r : FusedR) : FusedR :=
  match econ.find? (fun e => e.date == r.date) with
  | some e => {r with hosp := some e.hosp}
  | none => r

/-- The monthly GDELT aggregation joined at `(month, fips)` followed by
`fillna(0)`: rows without a FIPS value or without matching events get 0. -/
def gdeltMonthly (gdelt : List GdR) (month : Nat) (fips : Option String) : ℤ :=
  match fips with
  | none => 0
  | some f => ((gdelt.filter (fun g => g.month == month && g.fips == f)).map GdR.cnt).sum

/-- Shift of a nullable series: `none` both for the first `k` positions and
where the shifted-in value was itself null. -/
def shiftOptSeries (k : Nat) (xs : List (Option ℚ)) : List (Option ℚ) :=
  (List.range xs.length).map (fun i => if k ≤ i then (xs[i - k]?).join else none)

/-- The econ lag block's `(Date, lagged value)` table (lag 1 shown), built
from the fused frame exactly as in C1: dedup by date, sort, shift. -/
def econLagTable (rows : List FusedR) : List (Nat × Option ℚ) :=
  let g := sortBy (fun p => p.1)
    (dedupBy (fun p => p.1) (rows.map (fun r => (r.date, r.hosp))))
  (g.map Prod.fst).zip (shiftOptSeries 1 (g.map Prod.snd))

/-- `true` on `ok`, `false` on `error`. -/
def exceptOk {ε α : Type} : Except ε α → Bool
  | Except.ok _ => true
  | Except.error _ => false

/-- The covariate-merge plus econ-lag section of the unified script's main
body (lines 206-238). -/
def mainCovariateSection (mig : List MigR) (dist : List DistR)
    (econ : List EconR) (gdelt : List GdR) : Except String (List FusedR) :=
  let s1 : List FusedR :=
    if dist.isEmpty then
      mig.map (fun m => ⟨m.nat, m.date, m.enc, none, none, none, 0, none⟩)
    else mig.map (mergeDistance dist)
  let s2 := if econ.isEmpty then s1 else s1.map (mergeEcon econ)
  if !gdelt.isEmpty && dist.isEmpty then
    Except.error "KeyError: FIPS_CountryCode"
  else
    let s3 := if gdelt.isEmpty then s2
      else s2.map (fun r => {r with gdelt := gdeltMonthly gdelt r.date r.fips})
    if econ.isEmpty then Except.error "KeyError: US_Hospitality_JobOpenings"
    else
      Except.ok (s3.map (fun r =>
        {r with hospLag1 :=
          ((econLagTable s3).find? (fun p => p.1 == r.date)).bind Prod.snd}))

/-- C8 — counterexample.  The claim asserts the pipeline completes without
raising whenever any covariate table is empty.  With an empty economic
table the econ merge is skipped, so the econ lag block's column selection
`master_df[["Date"] + econ_cols_to_lag]` (line 232) raises a `KeyError` and
the run aborts. -/
theorem mergeEcon_gdelt (econ : List EconR) (r : FusedR) :
    (mergeEcon econ r).gdelt = r.gdelt := by
  rw [mergeEcon]
  cases econ.find? (fun e => e.date == r.date) <;> rfl

theorem mergeDistance_gdelt (dist : List DistR) (m : MigR) :
    (mergeDistance dist m).gdelt = 0 := by
  rw [mergeDistance]
  cases dist.find? (fun d => d.nat == m.nat) <;> rfl

theorem C8_counterexample :
    mainCovariateSection [⟨"Mexico", 700, 5⟩] [⟨"Mexico", "MX", 100⟩] [] []
      = Except.error "KeyError: US_Hospitality_JobOpenings" := by
  rfl

/-- C8 (amended): the run completes exactly when the economic table is
non-empty and either the distance table is non-empty or the GDELT table is
empty.  An empty GDELT table degrades to a zero count column; an empty
economic table always raises `KeyError` in the econ lag block; an empty
distance table raises `KeyError` at the GDELT merge whenever GDELT data is
present. -/
theorem C8_empty_covariates :
    (∀ (mig : List MigR) (dist : List DistR) (econ : List EconR) (gdelt : List GdR),
        exceptOk (mainCovariateSection mig dist econ gdelt)
          = (!econ.isEmpty && (!dist.isEmpty || gdelt.isEmpty)))
    ∧ (∀ (mig : List MigR) (dist : List DistR) (econ : List EconR)
          (out : List FusedR),
        mainCovariateSection mig dist econ [] = Except.ok out →
        ∀ r ∈ out, r.gdelt = 0)
    ∧ (∀ (mig : List MigR) (dist : List DistR) (econ : List EconR) (gdelt : List GdR),
        econ.isEmpty = true → (dist.isEmpty = false ∨ gdelt.isEmpty = true) →
        mainCovariateSection mig dist econ gdelt
          = Except.error "KeyError: US_Hospitality_JobOpenings")
    ∧ (∀ (mig : List MigR) (dist : List DistR) (econ : List EconR) (gdelt : List GdR),
        dist.isEmpty = true → gdelt.isEmpty = false →
        mainCovariateSection mig dist econ gdelt
          = Except.error "KeyError: FIPS_CountryCode") := by
  refine ⟨?_, ?_, ?_, ?_⟩
  · intro mig dist econ gdelt
    cases hgd : gdelt.isEmpty <;> cases hd : dist.isEmpty <;>
      cases he : econ.isEmpty <;>
        simp [mainCovariateSection, exceptOk, hgd, hd, he]
  · intro mig dist econ out hout r hr
    rw [mainCovariateSection] at hout
    simp only [List.isEmpty_nil, Bool.not_true, Bool.false_and, Bool.false_eq_true,
      not_false_iff, if_neg, ite_true, ite_false] at hout
    split at hout
    · cases hout
    · rename_i he
      injection hout with hX
      subst hX
      rcases List.mem_map.mp hr with ⟨r2, hr2, rfl⟩
      -- the lag-column map keeps the gdelt field
      show (r2.gdelt = 0)
      rcases List.mem_map.mp hr2 with ⟨r1, hr1, rfl⟩
      rw [mergeEcon_gdelt]
      split at hr1
      · rcases List.mem_map.mp hr1 with ⟨m, _, rfl⟩
        rfl
      · rcases List.mem_map.mp hr1 with ⟨m, _, rfl⟩
        exact mergeDistance_gdelt dist m
  · intro mig dist econ gdelt he hcond
    rcases hcond with hd | hgd
    · simp [mainCovariateSection, he, hd]
    · simp [mainCovariateSection, he, hgd]
  · intro mig dist econ gdelt hd hgd
    simp [mainCovariateSection, hd, hgd]

/-- C8 — witness: with non-empty distance and econ tables and an empty
GDELT table the section completes, its single output row carrying a zero
GDELT count; and an empty distance table combined with GDELT data raises
the FIPS `KeyError`. -/
theorem C8_empty_covariates_witness :
    (⟨"Mexico", 700, 5, some "MX", some 100, some 9, 0, none⟩ : FusedR).gdelt = 0
    ∧ mainCovariateSection [⟨"Mexico", 700, 5⟩] [] [⟨700, 9⟩] [⟨700, "MX", 3⟩]
        = Except.error "KeyError: FIPS_CountryCode" :=
  ⟨C8_empty_covariates.2.1 [⟨"Mexico", 700, 5⟩] [⟨"Mexico", "MX", 100⟩] [⟨700, 9⟩]
      [⟨"Mexico", 700, 5, some "MX", some 100, some 9, 0, none⟩] (by rfl)
      ⟨"Mexico", 700, 5, some "MX", some 100, some 9, 0, none⟩ (by decide),
    C8_empty_covariates.2.2.2 [⟨"Mexico", 700, 5⟩] [] [⟨700, 9⟩] [⟨700, "MX", 3⟩]
      (by decide) (by decide)⟩

end PEPFAR
